import Mathlib

/-!
Verification development for the mcp-analyzer repository.

The definitions below are shallow embeddings of the TypeScript sources:
  * `src/utils/fs.ts`        — the bounded directory walker `scanProjectDirectory`
  * `src/project-analyzer.ts`— `scanProject` (the pipeline walker `scanDir`) and
                               `generateMCPConfig`
  * `src/project-planner.ts` — the free-text classifier `analyzeTechStack`
  * `src/project-enhancer.ts`— `generateEnhancedMCPConfig` and `findNewTools`
  * `src/discovery-service.ts`— the fallback branch of `discoverMCPServers`

Filesystem reads, network calls and JSON parsing are modelled by explicit data:
a directory tree datatype carries the results the runtime would have produced
(directory listings, read-error codes, parsed package.json dependency keys).
Case-insensitive regex tests of alternation-of-literal patterns are modelled as
substring tests over lowercased text, which is exact for the ASCII literal
alternations used in the source.
-/

/-! ### Character-list utilities (substring matching, `String.prototype.includes`,
`RegExp.prototype.test` for alternation-of-literal patterns) -/

/-- Boolean test that `p` is a prefix of `s`, comparing characters with `==`. -/
def listPrefixEq : List Char → List Char → Bool
  | [], _ => true
  | _ :: _, [] => false
  | a :: as, b :: bs => a == b && listPrefixEq as bs

/-- Boolean test that `pat` occurs contiguously somewhere in `s`.
This models JavaScript `String.prototype.includes` and the matching of a
single literal regex alternative against a string. -/
def listContainsSub (pat : List Char) : List Char → Bool
  | [] => listPrefixEq pat []
  | c :: t => listPrefixEq pat (c :: t) || listContainsSub pat t

/-- Lowercasing of a string as a character list; models the effect of the `i`
regex flag (exact for the ASCII pattern literals used by the source). -/
def lowerChars (s : String) : List Char := s.toList.map Char.toLower

/-- Lowercased copy of a string (models `String.prototype.toLowerCase` on the
ASCII strings the source compares). -/
def strToLower (s : String) : String := String.mk (lowerChars s)

/-- `strContains s pat` models `s.includes(pat)` (case-sensitive). -/
def strContains (s pat : String) : Bool := listContainsSub pat.toList s.toList

/-- A case-insensitive alternation-of-literals regex test: the pattern matches
iff some alternative occurs as a substring of the lowercased text. -/
def patMatches (alts : List (List Char)) (s : String) : Bool :=
  alts.any (fun a => listContainsSub a (lowerChars s))

/-! ### The free-text classifier, language section
(`analyzeTechStack`, `src/project-planner.ts` lines 118–158).
Each regex in the source is an alternation of literals (with `\.?` giving two
literal spellings), so it is embedded as its list of alternatives. -/

/-- Alternatives of `/typescript|ts|angular|react|next\.?js|vue|node\.?js/i`. -/
def tsAlts : List (List Char) :=
  ["typescript".toList, "ts".toList, "angular".toList, "react".toList,
   "next.js".toList, "nextjs".toList, "vue".toList, "node.js".toList, "nodejs".toList]

/-- Alternatives of `/javascript|js|node\.?js|express|react|vue/i`. -/
def jsAlts : List (List Char) :=
  ["javascript".toList, "js".toList, "node.js".toList, "nodejs".toList,
   "express".toList, "react".toList, "vue".toList]

/-- Alternatives of the suppressor pattern `/typescript|ts/i`. -/
def tsSupAlts : List (List Char) := ["typescript".toList, "ts".toList]

/-- Alternatives of `/python|django|flask|fastapi|jupyter|numpy|pandas/i`. -/
def pyAlts : List (List Char) :=
  ["python".toList, "django".toList, "flask".toList, "fastapi".toList,
   "jupyter".toList, "numpy".toList, "pandas".toList]

/-- Alternatives of `/java|spring|springboot|gradle|maven/i`. -/
def javaAlts : List (List Char) :=
  ["java".toList, "spring".toList, "springboot".toList, "gradle".toList, "maven".toList]

/-- Alternatives of `/go|golang/i`. -/
def goAlts : List (List Char) := ["go".toList, "golang".toList]

/-- Alternatives of `/ruby|rails|rack|sinatra/i`. -/
def rubyAlts : List (List Char) :=
  ["ruby".toList, "rails".toList, "rack".toList, "sinatra".toList]

/-- Alternatives of `/c#|\.net|asp\.net|dotnet/i`. -/
def csAlts : List (List Char) :=
  ["c#".toList, ".net".toList, "asp.net".toList, "dotnet".toList]

/-- Alternatives of `/php|laravel|symfony|wordpress/i`. -/
def phpAlts : List (List Char) :=
  ["php".toList, "laravel".toList, "symfony".toList, "wordpress".toList]

/-- Alternatives of `/swift|ios|iphone|ipad/i`. -/
def swiftAlts : List (List Char) :=
  ["swift".toList, "ios".toList, "iphone".toList, "ipad".toList]

/-- Alternatives of `/kotlin|android/i`. -/
def kotlinAlts : List (List Char) := ["kotlin".toList, "android".toList]

/-- Alternatives of `/rust|cargo/i`. -/
def rustAlts : List (List Char) := ["rust".toList, "cargo".toList]

/-- One conditional append of the classifier (`techStack.languages.push(lbl)`
guarded by a regex test). -/
def langIf (b : Bool) (lbl : String) : List String := if b then [lbl] else []

/-- The `languages` output of `analyzeTechStack` (`src/project-planner.ts`
lines 125–158): the ordered battery of language tests. The JavaScript test is
`jsPattern matches ∧ ¬ (typescript|ts) matches`, exactly as in line 129. -/
def analyzeTechStackLanguages (d : String) : List String :=
  langIf (patMatches tsAlts d) "TypeScript"
  ++ langIf (patMatches jsAlts d && !(patMatches tsSupAlts d)) "JavaScript"
  ++ langIf (patMatches pyAlts d) "Python"
  ++ langIf (patMatches javaAlts d) "Java"
  ++ langIf (patMatches goAlts d) "Go"
  ++ langIf (patMatches rubyAlts d) "Ruby"
  ++ langIf (patMatches csAlts d) "C#"
  ++ langIf (patMatches phpAlts d) "PHP"
  ++ langIf (patMatches swiftAlts d) "Swift"
  ++ langIf (patMatches kotlinAlts d) "Kotlin"
  ++ langIf (patMatches rustAlts d) "Rust"

/-! ### Filesystem model

A directory tree as observed by the walkers. Results of the runtime's I/O are
carried in the tree: `badDir` is a directory whose `readdir` fails with the
given error code; a `file`'s content records what reading/parsing it would
produce (`pkgJson` is a `package.json` whose JSON parse succeeded with the
given dependency keys, `badJson` one whose parse failed, `raw` is plain text).
`readdir` entries never include `.` or `..`. -/

/-- Content of a regular file, as the manifest extractors observe it. -/
inductive FileContent where
  | raw (s : String)
  | pkgJson (deps : List String)
  | badJson
deriving DecidableEq, Repr

/-- A filesystem node: a regular file, a readable directory with its entries,
or a directory whose `readdir` fails with the given Node error code. -/
inductive FSNode where
  | file (name : String) (content : FileContent)
  | dir (name : String) (entries : List FSNode)
  | badDir (name : String) (code : String)

/-- The fixed ignore set checked before recursing into a subdirectory
(`src/utils/fs.ts` lines 83–89 and `src/project-analyzer.ts` lines 129–135). -/
def isIgnoredDir (nm : String) : Bool :=
  nm == "node_modules" || nm == ".git" || nm == "venv" || nm == "__pycache__" ||
  nm == ".next" || nm == "dist" || nm == "build"

/-- Index of the last `'.'` in a character list, if any. -/
def lastDotIdx : List Char → Option Nat
  | [] => none
  | c :: rest =>
    match lastDotIdx rest with
    | some i => some (i + 1)
    | none => if c == '.' then some 0 else none

/-- Node's `path.extname` on a basename: the suffix from the last `'.'`,
empty when there is no dot or the only dot starts the name (`.gitignore`). -/
def extname (name : String) : String :=
  let cs := name.toList
  match lastDotIdx cs with
  | none => ""
  | some 0 => ""
  | some i => String.mk (cs.drop i)

/-- The lowercased extension the walkers compute:
`path.extname(entry.name).toLowerCase()`. -/
def extOf (name : String) : String := strToLower (extname name)

/-! ### The bounded walker `scanProjectDirectory` (`src/utils/fs.ts` lines 65–109)

Only the `fileTypes` field of the stats object is mutated by this function, so
it is embedded over a file-type map alone. The map is an association list in
JavaScript object key order (first insertion order, increment in place). -/

/-- `fileTypes`: extension → count, in JavaScript object key order. -/
abbrev FTMap := List (String × Nat)

/-- `stats.fileTypes[ext] = (stats.fileTypes[ext] || 0) + 1`. -/
def bumpExt : FTMap → String → FTMap
  | [], e => [(e, 1)]
  | (k, v) :: rest, e =>
    if k == e then (k, v + 1) :: rest else (k, v) :: bumpExt rest e

def MAX_SCAN_DEPTH : Nat := 10

def MAX_FILES : Nat := 10000

/-- The entry loop of `scanProjectDirectory` over the entries of one
successfully read directory, at recursion depth `d`, with `fc` the value of the
`fileCount` parameter. Returns the updated file-type map and the local value of
`fileCount` at the end of the loop.

Faithful to the source:
  * `fileCount` is a JavaScript number parameter, passed **by value**: a
    recursive call receives the current local count, but increments performed
    inside the recursion are discarded when it returns (the function returns
    `void`), which this embedding renders by keeping the caller's `fc` across
    the child call;
  * the `currentDepth >= MAX_SCAN_DEPTH || fileCount >= MAX_FILES` test sits at
    the child's function entry, before its `readdir`, and is inlined here at
    the recursion site;
  * a child directory whose `readdir` fails with `EACCES` only logs a warning
    (subtree treated as empty); any other error is rethrown and aborts every
    enclosing loop (`Except.error`);
  * `fileCount++` runs for every regular file, extension or not. -/
def scanPD : List FSNode → FTMap → Nat → Nat → Except String (FTMap × Nat)
  | [], ft, _, fc => .ok (ft, fc)
  | FSNode.file nm _ :: rest, ft, d, fc =>
    let ext := extOf nm
    let ft' := if ext ≠ "" then bumpExt ft ext else ft
    scanPD rest ft' d (fc + 1)
  | FSNode.dir nm entries :: rest, ft, d, fc =>
    if isIgnoredDir nm then scanPD rest ft d fc
    else if d + 1 ≥ MAX_SCAN_DEPTH ∨ fc ≥ MAX_FILES then scanPD rest ft d fc
    else
      match scanPD entries ft (d + 1) fc with
      | .error e => .error e
      | .ok (ft', _) => scanPD rest ft' d fc
  | FSNode.badDir nm code :: rest, ft, d, fc =>
    if isIgnoredDir nm then scanPD rest ft d fc
    else if d + 1 ≥ MAX_SCAN_DEPTH ∨ fc ≥ MAX_FILES then scanPD rest ft d fc
    else if code == "EACCES" then scanPD rest ft d fc
    else .error code
termination_by l _ _ _ => sizeOf l

/-- The top-level call `scanProjectDirectory(projectPath, stats)` with the
default `currentDepth = 0`, `fileCount = 0` (both guards trivially pass).
A root whose `readdir` fails behaves per the same catch clause; a root that is
a regular file fails `readdir` with `ENOTDIR`. -/
def scanPDroot (root : FSNode) (ft : FTMap) : Except String FTMap :=
  match root with
  | FSNode.dir _ entries => (scanPD entries ft 0 0).map Prod.fst
  | FSNode.badDir _ code => if code == "EACCES" then .ok ft else .error code
  | FSNode.file _ _ => .error "ENOTDIR"

/-! ### The pipeline walker `scanDir` / `scanProject`
(`src/project-analyzer.ts` lines 110–344)

`scanDir` applies no depth or file-count bound. Every error while reading a
directory is caught at that directory (logged with `console.error`) and the
walk continues, so `badDir` subtrees simply contribute nothing. Dependencies
are modelled by their key names (the version strings are never used by the
detectors beyond truthiness of a present key). -/

/-- The shared mutable accumulator `ProjectStats`
(`src/project-analyzer.ts` lines 6–12). -/
structure ProjectStats where
  fileTypes : FTMap
  languages : List String
  frameworks : List String
  dependencies : List String
  features : List String
deriving DecidableEq, Repr

/-- A guarded push `if (!list.includes(x)) list.push(x)`. -/
def pushNew (l : List String) (x : String) : List String :=
  if l.contains x then l else l ++ [x]

/-- The extension → language table of the `else if` chain
(`src/project-analyzer.ts` lines 146–170). The chain of
`['.js','.jsx'].includes(ext) && !languages.includes('JavaScript')` tests is
equivalent to one table lookup followed by a guarded push, because each branch
repeats the guard inside its condition and the extension sets are disjoint. -/
def extLanguage (ext : String) : Option String :=
  if ext = ".js" ∨ ext = ".jsx" then some "JavaScript"
  else if ext = ".ts" ∨ ext = ".tsx" then some "TypeScript"
  else if ext = ".py" then some "Python"
  else if ext = ".java" then some "Java"
  else if ext = ".go" then some "Go"
  else if ext = ".rb" ∨ ext = ".rake" then some "Ruby"
  else if ext = ".php" then some "PHP"
  else if ext = ".cs" then some "C#"
  else if ext = ".rs" then some "Rust"
  else if ext = ".swift" then some "Swift"
  else if ext = ".kt" ∨ ext = ".kts" then some "Kotlin"
  else if ext = ".dart" then some "Dart"
  else none

/-- Framework detection from `package.json` dependency keys
(`src/project-analyzer.ts` lines 190–214), in source order. -/
def pjFrameworks (deps : List String) (fw : List String) : List String :=
  let fw := if deps.contains "react" then pushNew fw "React" else fw
  let fw := if deps.contains "vue" then pushNew fw "Vue" else fw
  let fw := if deps.contains "next" then pushNew fw "Next.js" else fw
  let fw := if deps.contains "express" then pushNew fw "Express" else fw
  let fw := if deps.contains "angular" || deps.contains "@angular/core" then
    pushNew fw "Angular" else fw
  let fw := if deps.contains "svelte" then pushNew fw "Svelte" else fw
  let fw := if deps.contains "gatsby" then pushNew fw "Gatsby" else fw
  if deps.contains "nuxt" then pushNew fw "Nuxt.js" else fw

/-- Feature detection from `package.json` dependency keys
(`src/project-analyzer.ts` lines 216–241). These pushes carry **no**
`includes` guard in the source, so duplicates may accumulate. -/
def pjFeatures (deps : List String) (fs : List String) : List String :=
  let fs := if ["passport", "jsonwebtoken", "auth0", "firebase-auth"].any deps.contains
    then fs ++ ["Authentication"] else fs
  let fs := if ["mongoose", "sequelize", "typeorm", "prisma", "pg", "mysql",
      "sqlite", "mongodb"].any deps.contains then fs ++ ["Database"] else fs
  let fs := if ["express", "fastify", "koa", "hapi", "restify", "nest",
      "graphql"].any deps.contains then fs ++ ["API"] else fs
  let fs := if ["jest", "mocha", "jasmine", "cypress", "playwright", "vitest",
      "chai"].any deps.contains then fs ++ ["Testing"] else fs
  let fs := if ["docker-compose", "kubernetes", "k8s"].any deps.contains
    then fs ++ ["Containerization"] else fs
  let fs := if ["multer", "aws-sdk", "@aws-sdk/client-s3", "firebase-storage",
      "cloudinary"].any deps.contains then fs ++ ["File Storage"] else fs
  if ["socket.io", "ws", "websocket"].any deps.contains
    then fs ++ ["Real-time"] else fs

/-- The `package.json` extractor (`src/project-analyzer.ts` lines 174–244). -/
def applyPackageJson (deps : List String) (st : ProjectStats) : ProjectStats :=
  { st with
    dependencies := deps.foldl pushNew st.dependencies
    frameworks := pjFrameworks deps st.frameworks
    features := pjFeatures deps st.features }

/-- The name recovered from one `requirements.txt` line:
`line.split('==')[0].split('>=')[0].trim()`. -/
def reqName (line : String) : String :=
  ((((line.splitOn "==").headD "").splitOn ">=").headD "").trim

/-- The parsed entries of `requirements.txt`: split on newline, trim, drop
blank lines, strip version constraints (lines 248–254). -/
def reqEntries (s : String) : List String :=
  (((s.splitOn "\n").map String.trim).filter (· ≠ "")).map reqName

/-- The `requirements.txt` extractor (`src/project-analyzer.ts` lines
245–289). Dependency pushes are guarded by truthiness of the recovered name
and `!includes`; framework pushes are guarded; feature pushes are not. -/
def applyRequirements (s : String) (st : ProjectStats) : ProjectStats :=
  let reqs := reqEntries s
  let deps := reqs.foldl
    (fun d r => if r ≠ "" ∧ ¬ d.contains r then d ++ [r] else d) st.dependencies
  let fw := st.frameworks
  let fw := if reqs.any (fun r => strToLower r == "django") then pushNew fw "Django" else fw
  let fw := if reqs.any (fun r => strToLower r == "flask") then pushNew fw "Flask" else fw
  let fw := if reqs.any (fun r => strToLower r == "fastapi") then pushNew fw "FastAPI" else fw
  let fs := st.features
  let fs := if reqs.any (fun r => ["authlib", "flask-login", "django-auth", "python-jose",
      "djangorestframework-simplejwt"].contains (strToLower r)) then fs ++ ["Authentication"] else fs
  let fs := if reqs.any (fun r => ["sqlalchemy", "django-orm", "pymongo", "psycopg2",
      "mysql-connector-python"].contains (strToLower r)) then fs ++ ["Database"] else fs
  let fs := if reqs.any (fun r => ["django-rest-framework", "flask-restful", "fastapi",
      "graphene"].contains (strToLower r)) then fs ++ ["API"] else fs
  let fs := if reqs.any (fun r => ["pytest", "unittest", "nose", "behave",
      "robot"].contains (strToLower r)) then fs ++ ["Testing"] else fs
  { st with dependencies := deps, frameworks := fw, features := fs }

/-- The `build.gradle` / `pom.xml` extractor (`src/project-analyzer.ts` lines
290–310): Java plus the build tool, and a Spring marker check in the file
text; a read failure (non-`raw` content) is swallowed. -/
def applyBuildFile (name : String) (content : FileContent) (st : ProjectStats) : ProjectStats :=
  let st := { st with languages := pushNew st.languages "Java" }
  let st := if name = "build.gradle" then
    { st with frameworks := pushNew st.frameworks "Gradle" } else st
  let st := if name = "pom.xml" then
    { st with frameworks := pushNew st.frameworks "Maven" } else st
  match content with
  | FileContent.raw s =>
    if strContains s "org.springframework" then
      { st with frameworks := pushNew st.frameworks "Spring" } else st
  | _ => st

/-- The `Gemfile` extractor (`src/project-analyzer.ts` lines 311–324). -/
def applyGemfile (content : FileContent) (st : ProjectStats) : ProjectStats :=
  let st := { st with languages := pushNew st.languages "Ruby" }
  match content with
  | FileContent.raw s =>
    if strContains s "rails" then
      { st with frameworks := pushNew st.frameworks "Rails" } else st
  | _ => st

/-- The extension block of `scanDir`'s file handling
(`src/project-analyzer.ts` lines 141–171): for a non-empty lowercased
extension, bump its `fileTypes` count and push the detected language. -/
def processExt (name : String) (st : ProjectStats) : ProjectStats :=
  let ext := extOf name
  if ext ≠ "" then
    let st := { st with fileTypes := bumpExt st.fileTypes ext }
    match extLanguage ext with
    | some lang => { st with languages := pushNew st.languages lang }
    | none => st
  else st

/-- The special-filename chain of `scanDir`'s file handling
(`src/project-analyzer.ts` lines 173–329). -/
def processSpecial (name : String) (content : FileContent) (st : ProjectStats) : ProjectStats :=
  if name = "package.json" then
    match content with
    | FileContent.pkgJson deps => applyPackageJson deps st
    | _ => st
  else if name = "requirements.txt" then
    match content with
    | FileContent.raw s => applyRequirements s st
    | _ => st
  else if name = "build.gradle" ∨ name = "pom.xml" then applyBuildFile name content st
  else if name = "Gemfile" then applyGemfile content st
  else if name = "Dockerfile" ∨ name = "docker-compose.yml" ∨ name = "docker-compose.yaml" then
    { st with features := st.features ++ ["Containerization"] }
  else if name = ".github/workflows" ∨ name = "Jenkinsfile" ∨ name = ".gitlab-ci.yml" then
    { st with features := st.features ++ ["CI/CD"] }
  else st

/-- Processing of one regular file by `scanDir`
(`src/project-analyzer.ts` lines 139–329): extension bookkeeping and language
detection, then the special-filename chain. -/
def processFile (name : String) (content : FileContent) (st : ProjectStats) : ProjectStats :=
  processSpecial name content (processExt name st)

/-- The entry loop of `scanDir` (`src/project-analyzer.ts` lines 120–336) over
the entries of one directory: unbounded recursion, ignored directory names
skipped, and every read error caught at the directory where it occurs (the
subtree contributes nothing and the loop continues). -/
def scanDirList : List FSNode → ProjectStats → ProjectStats
  | [], st => st
  | FSNode.file nm c :: rest, st => scanDirList rest (processFile nm c st)
  | FSNode.dir nm entries :: rest, st =>
    if isIgnoredDir nm then scanDirList rest st
    else scanDirList rest (scanDirList entries st)
  | FSNode.badDir _ _ :: rest, st => scanDirList rest st
termination_by l _ => sizeOf l

/-- First-occurrence deduplication, the order-preserving semantics of
`[...new Set(xs)]`. -/
def dedupFirstAux (seen : List String) : List String → List String
  | [] => []
  | x :: xs =>
    if seen.contains x then dedupFirstAux seen xs
    else x :: dedupFirstAux (x :: seen) xs

/-- `stats.features = [...new Set(stats.features)]`
(`src/project-analyzer.ts` line 341). -/
def dedupFirst (l : List String) : List String := dedupFirstAux [] l

/-- `scanProject` (`src/project-analyzer.ts` lines 110–344): fresh stats, the
recursive walk from the root, then final feature deduplication. A root whose
`readdir` fails is caught by `scanDir`'s own catch, leaving the stats empty. -/
def scanProject (root : FSNode) : ProjectStats :=
  let st0 : ProjectStats := ⟨[], [], [], [], []⟩
  let st :=
    match root with
    | FSNode.dir _ entries => scanDirList entries st0
    | _ => st0
  { st with features := dedupFirst st.features }

/-! ### Config synthesizer and discovery fallback
(`src/project-enhancer.ts`, `src/project-analyzer.ts` lines 346–372,
`src/discovery-service.ts`) -/

/-- A discovered server descriptor (`MCPServerInfo`,
`src/discovery-service.ts` lines 4–11). -/
structure MCPServerInfo where
  name : String
  description : String
  repository : String
  installCommand : String
  installArgs : List String
  env : Option (List (String × String))
deriving DecidableEq, Repr

/-- One entry of `mcpServers`: `{ command, args, env? }`. -/
structure ServerEntry where
  command : String
  args : List String
  env : Option (List (String × String))
deriving DecidableEq, Repr

/-- The tool map `mcpServers`, in JavaScript object key order. -/
abbrev ToolMap := List (String × ServerEntry)

/-- A configuration object as read from `mcp.json`: the `mcpServers` key may
be absent (`none`), which the source guards with `if (!newConfig.mcpServers)`
and `oldConfig.mcpServers || {}`. -/
structure MCPConfig where
  mcpServers : Option ToolMap
deriving DecidableEq, Repr

/-- `config.mcpServers[name] = { command: info.installCommand, args:
info.installArgs, ...(info.env ? { env: info.env } : {}) }`. -/
def toServerEntry (i : MCPServerInfo) : ServerEntry :=
  ⟨i.installCommand, i.installArgs, i.env⟩

/-- One step of the enhancement loop (`src/project-enhancer.ts` lines
100–108): a discovered server is inserted only when its name is not already a
key of the map (descriptor values are objects, hence truthy, so the source's
falsiness test `!newConfig.mcpServers[serverName]` is key absence). -/
def insertIfAbsent (m : ToolMap) (p : String × MCPServerInfo) : ToolMap :=
  if (List.lookup p.1 m).isSome then m else m ++ [(p.1, toServerEntry p.2)]

/-- `generateEnhancedMCPConfig` (`src/project-enhancer.ts` lines 80–111) as a
function of the existing configuration and of the map the discovery
collaborator returned: deep-copy (identity on values), default the missing
`mcpServers` key to `{}`, then insert each discovered entry only under absent
tool names. The technology keyword list only influences what discovery
returns, which is the `discovered` parameter here. -/
def generateEnhancedMCPConfig (cfg : MCPConfig)
    (discovered : List (String × MCPServerInfo)) : MCPConfig :=
  ⟨some (discovered.foldl insertIfAbsent (cfg.mcpServers.getD []))⟩

/-- `findNewTools` (`src/project-enhancer.ts` lines 113–118): key names of
`newConfig.mcpServers` that are not key names of `oldConfig.mcpServers`. -/
def findNewTools (oldConfig newConfig : MCPConfig) : List String :=
  let oldTools := (oldConfig.mcpServers.getD []).map Prod.fst
  let newTools := (newConfig.mcpServers.getD []).map Prod.fst
  newTools.filter (fun t => ! oldTools.contains t)

/-- `generateMCPConfig` (`src/project-analyzer.ts` lines 346–372 and the
identical function in `src/project-planner.ts` lines 251–275) as a function of
the map the discovery collaborator returned: every discovered descriptor is
mapped verbatim into a fresh configuration. -/
def generateMCPConfigWith (discovered : List (String × MCPServerInfo)) : MCPConfig :=
  ⟨some (discovered.map (fun p => (p.1, toServerEntry p.2)))⟩

/-- The value returned by `discoverMCPServers` when the remote fetch fails
(the catch clause, `src/discovery-service.ts` lines 86–106): the fixed
fallback map of the two baseline tools. The function catches every error
itself, so discovery failure is observed by callers as exactly this map. -/
def fallbackServers : List (String × MCPServerInfo) :=
  [("brave-search",
    { name := "brave-search"
      description := "Enables web searches using the Brave Search API"
      repository := "https://github.com/modelcontextprotocol/servers/tree/main/brave-search"
      installCommand := "npx"
      installArgs := ["-y", "@modelcontextprotocol/server-brave-search"]
      env := some [("BRAVE_API_KEY", "YOUR_API_KEY_HERE")] }),
   ("sequential-thinking",
    { name := "sequential-thinking"
      description := "Enables step-by-step reasoning for complex problems"
      repository := "https://github.com/modelcontextprotocol/servers/tree/main/sequential-thinking"
      installCommand := "npx"
      installArgs := ["-y", "@modelcontextprotocol/server-sequential-thinking"]
      env := none })]

/-- Enhancement when the discovery collaborator fails: by the catch clause of
`discoverMCPServers`, the enhancement loop runs on the fallback map. -/
def enhanceOnDiscoveryFailure (cfg : MCPConfig) : MCPConfig :=
  generateEnhancedMCPConfig cfg fallbackServers

/-! ### Concrete input trees used by individual claims -/

/-- A directory of `n` JavaScript files. -/
def flatJsDir (n : Nat) : FSNode :=
  FSNode.dir "sub" (List.replicate n (FSNode.file "f.js" (FileContent.raw "")))

/-- Root with three subdirectories of 10001 `.js` files each: 30003 files in
total, three times the `MAX_FILES` budget. -/
def c1Tree : FSNode := FSNode.dir "root" [flatJsDir 10001, flatJsDir 10001, flatJsDir 10001]

/-- A `node_modules` subtree containing a Python file, next to one
JavaScript file. -/
def c6Tree : FSNode :=
  FSNode.dir "root"
    [FSNode.dir "node_modules" [FSNode.file "x.py" (FileContent.raw "")],
     FSNode.file "a.js" (FileContent.raw "")]

/-- A sample pre-existing tool entry, used as a concrete witness input. -/
def sampleEntry : ServerEntry := ⟨"npx", ["-y", "tool-a"], none⟩

/-- A sample discovered server descriptor, used as a concrete witness input. -/
def sampleInfo : MCPServerInfo :=
  ⟨"tool-b", "sample", "repo", "npx", ["-y", "tool-b"], none⟩

/-- A sample existing configuration with one tool, used as a witness input. -/
def sampleConfig : MCPConfig := ⟨some [("tool-a", sampleEntry)]⟩

/-- The no-duplicates invariant on the three stats lists that the source
pushes through guarded `includes` checks. -/
def statsNodup (st : ProjectStats) : Prop :=
  st.languages.Nodup ∧ st.frameworks.Nodup ∧ st.dependencies.Nodup

/-- `n`-fold `.js` count bump, the effect of a flat run of `n` `.js` files on
the file-type map. -/
def jsIter : Nat → FTMap → FTMap
  | 0, ft => ft
  | n + 1, ft => jsIter n (bumpExt ft ".js")

/-! ## Helper lemmas -/

theorem mem_langIf {b : Bool} {lbl x : String} : x ∈ langIf b lbl ↔ b = true ∧ x = lbl := by
  unfold langIf; cases b <;> simp

theorem listPrefixEq_iff (p : List Char) : ∀ s, listPrefixEq p s = true ↔ s.take p.length = p := by
  induction p with
  | nil => intro s; simp [listPrefixEq]
  | cons a as ih =>
    intro s
    cases s with
    | nil => simp [listPrefixEq]
    | cons b bs =>
      simp only [listPrefixEq, Bool.and_eq_true, beq_iff_eq, ih, List.length_cons,
        List.take_succ_cons, List.cons.injEq]
      tauto

theorem listContainsSub_iff (p : List Char) :
    ∀ s, listContainsSub p s = true ↔ ∃ i, (s.drop i).take p.length = p := by
  intro s
  induction s with
  | nil => simp [listContainsSub, listPrefixEq_iff]
  | cons c t ih =>
    rw [listContainsSub]
    simp only [Bool.or_eq_true, listPrefixEq_iff, ih]
    constructor
    · rintro (h | ⟨i, hi⟩)
      · exact ⟨0, by simpa using h⟩
      · exact ⟨i + 1, by simpa using hi⟩
    · rintro ⟨i, hi⟩
      cases i with
      | zero => exact Or.inl (by simpa using hi)
      | succ j => exact Or.inr ⟨j, by simpa using hi⟩

theorem listContainsSub_mono (a p c s : List Char)
    (h : listContainsSub (a ++ p ++ c) s = true) : listContainsSub p s = true := by
  rw [listContainsSub_iff] at h ⊢
  obtain ⟨i, hi⟩ := h
  refine ⟨i + a.length, ?_⟩
  have h2 := congrArg (List.drop a.length) hi
  rw [List.drop_take, List.drop_drop, List.append_assoc, List.drop_left] at h2
  have hlen : (a ++ (p ++ c)).length - a.length = (p ++ c).length := by
    simp [List.length_append]
  rw [hlen] at h2
  have h3 := congrArg (List.take p.length) h2
  rw [List.take_take, Nat.min_eq_left (by simp), List.take_left] at h3
  exact h3

theorem lookup_append_left {α β : Type} [BEq α] {k : α} {v : β} :
    ∀ (m l : List (α × β)), List.lookup k m = some v → List.lookup k (m ++ l) = some v := by
  intro m l h
  induction m with
  | nil => simp [List.lookup] at h
  | cons p rest ih =>
    rw [List.cons_append]
    rw [List.lookup] at h ⊢
    cases hk : (k == p.1) with
    | true => simpa [hk] using (by simpa [hk] using h)
    | false => simp [hk] at h ⊢; exact ih h

theorem lookup_insertIfAbsent_some {m : ToolMap} {p : String × MCPServerInfo}
    {k : String} {v : ServerEntry} (h : List.lookup k m = some v) :
    List.lookup k (insertIfAbsent m p) = some v := by
  unfold insertIfAbsent
  split
  · exact h
  · exact lookup_append_left _ _ h

theorem lookup_foldl_insert_some :
    ∀ (discovered : List (String × MCPServerInfo)) (m : ToolMap) (k : String) (v : ServerEntry),
      List.lookup k m = some v →
      List.lookup k (discovered.foldl insertIfAbsent m) = some v := by
  intro discovered
  induction discovered with
  | nil => intro m k v h; simpa using h
  | cons p rest ih =>
    intro m k v h
    rw [List.foldl_cons]
    exact ih _ _ _ (lookup_insertIfAbsent_some h)

theorem lookup_isSome_iff_mem_keys {α β : Type} [BEq α] [LawfulBEq α] :
    ∀ (m : List (α × β)) (k : α), (List.lookup k m).isSome ↔ k ∈ m.map Prod.fst := by
  intro m k
  induction m with
  | nil => simp [List.lookup]
  | cons p rest ih =>
    rw [List.lookup]
    cases hk : (k == p.1) with
    | true => simp [eq_of_beq hk]
    | false =>
      have : ¬ k = p.1 := fun he => by simp [he] at hk
      simp [this, ih]

theorem lookup_append_isSome {α β : Type} [BEq α] {k : α} :
    ∀ (m l : List (α × β)),
      (List.lookup k (m ++ l)).isSome ↔ ((List.lookup k m).isSome ∨ (List.lookup k l).isSome) := by
  intro m l
  induction m with
  | nil => simp [List.lookup]
  | cons p rest ih =>
    rw [List.cons_append, List.lookup, List.lookup]
    cases hk : (k == p.1) <;> simp [hk, ih]

theorem lookup_insertIfAbsent_isSome {m : ToolMap} {p : String × MCPServerInfo} {k : String} :
    (List.lookup k (insertIfAbsent m p)).isSome ↔ ((List.lookup k m).isSome ∨ k = p.1) := by
  unfold insertIfAbsent
  split
  · rename_i hs
    constructor
    · exact Or.inl
    · rintro (h | rfl)
      · exact h
      · exact hs
  · rw [lookup_append_isSome]
    have : (List.lookup k [(p.1, toServerEntry p.2)]).isSome ↔ k = p.1 := by
      rw [List.lookup]
      cases hk : (k == p.1) with
      | true => simp [eq_of_beq hk]
      | false =>
        have : ¬ k = p.1 := fun he => by simp [he] at hk
        simp [this]
    rw [this]

theorem lookup_foldl_isSome_iff :
    ∀ (discovered : List (String × MCPServerInfo)) (m : ToolMap) (k : String),
      (List.lookup k (discovered.foldl insertIfAbsent m)).isSome ↔
        ((List.lookup k m).isSome ∨ k ∈ discovered.map Prod.fst) := by
  intro discovered
  induction discovered with
  | nil => simp
  | cons p rest ih =>
    intro m k
    rw [List.foldl_cons, ih, lookup_insertIfAbsent_isSome]
    simp [or_assoc, or_comm, or_left_comm]

theorem pushNew_nodup {l : List String} {x : String} (h : l.Nodup) : (pushNew l x).Nodup := by
  unfold pushNew
  split
  · exact h
  · rename_i hc
    have hx : x ∉ l := fun hm => hc (List.elem_iff.mpr hm)
    simp [List.nodup_append, h, hx]

theorem foldl_pushNew_nodup :
    ∀ (xs : List String) (l : List String), l.Nodup → (xs.foldl pushNew l).Nodup := by
  intro xs
  induction xs with
  | nil => intro l h; simpa using h
  | cons a rest ih => intro l h; rw [List.foldl_cons]; exact ih _ (pushNew_nodup h)

theorem foldl_reqPush_nodup :
    ∀ (xs : List String) (l : List String), l.Nodup →
      (xs.foldl (fun d r => if r ≠ "" ∧ ¬ d.contains r then d ++ [r] else d) l).Nodup := by
  intro xs
  induction xs with
  | nil => intro l h; simpa using h
  | cons a rest ih =>
    intro l h
    rw [List.foldl_cons]
    apply ih
    split
    · rename_i hcond
      have hx : a ∉ l := fun hm => hcond.2 (List.elem_iff.mpr hm)
      simp [List.nodup_append, h, hx]
    · exact h

theorem pjFrameworks_nodup {deps fw : List String} (h : fw.Nodup) : (pjFrameworks deps fw).Nodup := by
  unfold pjFrameworks
  repeat' split
  all_goals repeat' apply pushNew_nodup
  all_goals exact h

theorem applyPackageJson_inv {deps : List String} {st : ProjectStats}
    (h : statsNodup st) : statsNodup (applyPackageJson deps st) := by
  obtain ⟨h1, h2, h3⟩ := h
  exact ⟨h1, pjFrameworks_nodup h2, foldl_pushNew_nodup _ _ h3⟩

theorem applyRequirements_inv {s : String} {st : ProjectStats}
    (h : statsNodup st) : statsNodup (applyRequirements s st) := by
  obtain ⟨h1, h2, h3⟩ := h
  refine ⟨h1, ?_, foldl_reqPush_nodup _ _ h3⟩
  unfold applyRequirements
  dsimp only
  repeat' split
  all_goals repeat' apply pushNew_nodup
  all_goals exact h2

theorem applyBuildFile_inv {nm : String} {c : FileContent} {st : ProjectStats}
    (h : statsNodup st) : statsNodup (applyBuildFile nm c st) := by
  obtain ⟨h1, h2, h3⟩ := h
  unfold applyBuildFile
  dsimp only
  repeat' split
  all_goals refine ⟨pushNew_nodup h1, ?_, h3⟩
  all_goals repeat' apply pushNew_nodup
  all_goals exact h2

theorem applyGemfile_inv {c : FileContent} {st : ProjectStats}
    (h : statsNodup st) : statsNodup (applyGemfile c st) := by
  obtain ⟨h1, h2, h3⟩ := h
  unfold applyGemfile
  dsimp only
  repeat' split
  all_goals refine ⟨pushNew_nodup h1, ?_, h3⟩
  all_goals repeat' apply pushNew_nodup
  all_goals exact h2

theorem processExt_inv {nm : String} {st : ProjectStats}
    (h : statsNodup st) : statsNodup (processExt nm st) := by
  obtain ⟨h1, h2, h3⟩ := h
  unfold processExt
  dsimp only
  repeat' split
  all_goals exact ⟨by first | exact pushNew_nodup h1 | exact h1, h2, h3⟩

theorem processSpecial_inv {nm : String} {c : FileContent} {st : ProjectStats}
    (h : statsNodup st) : statsNodup (processSpecial nm c st) := by
  unfold processSpecial
  repeat' split
  all_goals first
    | exact applyPackageJson_inv h
    | exact applyRequirements_inv h
    | exact applyBuildFile_inv h
    | exact applyGemfile_inv h
    | exact ⟨h.1, h.2.1, h.2.2⟩

theorem processFile_inv {nm : String} {c : FileContent} {st : ProjectStats}
    (h : statsNodup st) : statsNodup (processFile nm c st) :=
  processSpecial_inv (processExt_inv h)

theorem scanDirList_inv : ∀ (l : List FSNode) (st : ProjectStats),
    statsNodup st → statsNodup (scanDirList l st)
  | [], st, h => by rwa [scanDirList]
  | FSNode.file nm c :: rest, st, h => by
    rw [scanDirList]
    exact scanDirList_inv rest _ (processFile_inv h)
  | FSNode.dir nm entries :: rest, st, h => by
    rw [scanDirList]
    split
    · exact scanDirList_inv rest _ h
    · exact scanDirList_inv rest _ (scanDirList_inv entries _ h)
  | FSNode.badDir nm code :: rest, st, h => by
    rw [scanDirList]
    exact scanDirList_inv rest _ h
termination_by l _ _ => sizeOf l

theorem dedupFirstAux_nodup :
    ∀ (l seen : List String),
      (dedupFirstAux seen l).Nodup ∧ ∀ x ∈ dedupFirstAux seen l, x ∉ seen := by
  intro l
  induction l with
  | nil => intro seen; simp [dedupFirstAux]
  | cons a rest ih =>
    intro seen
    rw [dedupFirstAux]
    split
    · rename_i hc
      exact ih seen
    · rename_i hc
      have ha : a ∉ seen := fun hm => hc (List.elem_iff.mpr hm)
      obtain ⟨hn, hs⟩ := ih (a :: seen)
      refine ⟨?_, ?_⟩
      · refine List.nodup_cons.mpr ⟨?_, hn⟩
        intro hmem
        exact (hs a hmem) (List.mem_cons_self a seen)
      · intro x hx
        rcases List.mem_cons.mp hx with rfl | hx'
        · exact ha
        · intro hxs
          exact (hs x hx') (List.mem_cons_of_mem a hxs)

theorem dedupFirst_nodup (l : List String) : (dedupFirst l).Nodup :=
  (dedupFirstAux_nodup l []).1

theorem scanPD_flat_js :
    ∀ (n : Nat) (ft : FTMap) (d fc : Nat),
      scanPD (List.replicate n (FSNode.file "f.js" (FileContent.raw ""))) ft d fc =
        Except.ok (jsIter n ft, fc + n) := by
  intro n
  induction n with
  | zero => intro ft d fc; simp [scanPD, jsIter]
  | succ m ih =>
    intro ft d fc
    rw [List.replicate_succ]
    rw [scanPD]
    have hext : extOf "f.js" = ".js" := by decide
    simp only [hext]
    rw [if_pos (by decide)]
    rw [ih]
    show Except.ok (jsIter m (bumpExt ft ".js"), fc + 1 + m) = _
    rw [show jsIter (m + 1) ft = jsIter m (bumpExt ft ".js") from rfl]
    congr 2
    omega

theorem jsIter_cons : ∀ (n k : Nat), jsIter n [(".js", k)] = [(".js", k + n)] := by
  intro n
  induction n with
  | zero => intro k; simp [jsIter]
  | succ m ih =>
    intro k
    rw [jsIter]
    rw [show bumpExt [(".js", k)] ".js" = [(".js", k + 1)] from rfl]
    rw [ih]
    congr 2
    omega

theorem jsIter_nil : ∀ n : Nat, jsIter (n + 1) [] = [(".js", 1 + n)] := by
  intro n
  rw [jsIter]
  rw [show bumpExt [] ".js" = [(".js", 1)] from rfl]
  exact jsIter_cons n 1

theorem scanPD_dir_step {nm : String} {entries rest : List FSNode} {ft ft' : FTMap}
    {d fc fc' : Nat} (hig : isIgnoredDir nm = false) (hd : d + 1 < MAX_SCAN_DEPTH)
    (hfc : fc < MAX_FILES)
    (hchild : scanPD entries ft (d + 1) fc = Except.ok (ft', fc')) :
    scanPD (FSNode.dir nm entries :: rest) ft d fc = scanPD rest ft' d fc := by
  rw [scanPD]
  simp [hig, Nat.not_le.mpr hd, Nat.not_le.mpr hfc, hchild]

/-! ## Claim theorems -/

/-- Claim C1. The claim states that the recursive walk stops counting files
into `fileTypes` once the running total of files seen reaches
`MAX_FILES = 10000`, within a one-directory tolerance (and never counts files
at or below depth `MAX_SCAN_DEPTH`). This theorem evaluates the embedded
`scanProjectDirectory` at the failing input — a root with three subdirectories
of 10001 `.js` files each — and shows the walk counts all 30003 files, more
than the budget even after granting one full directory (10001 files) of
tolerance: the `fileCount` parameter is passed by value, so the counts a child
call accumulates are discarded on return and every sibling subtree restarts
from the parent's local count. -/
theorem c1_maxFiles_budget_not_enforced :
    scanPDroot c1Tree [] = Except.ok [(".js", 30003)] ∧ MAX_FILES + 10001 < 30003 := by
  constructor
  · have h0 : scanPD (List.replicate 10001 (FSNode.file "f.js" (FileContent.raw ""))) [] 1 0 =
        Except.ok ([(".js", 10001)], 10001) := by
      rw [scanPD_flat_js]
      rw [show (10001 : Nat) = 10000 + 1 from rfl, jsIter_nil]
    have hA : ∀ k : Nat,
        scanPD (List.replicate 10001 (FSNode.file "f.js" (FileContent.raw ""))) [(".js", k)] 1 0 =
          Except.ok ([(".js", k + 10001)], 10001) := by
      intro k
      rw [scanPD_flat_js, jsIter_cons]
    show (scanPD [flatJsDir 10001, flatJsDir 10001, flatJsDir 10001] [] 0 0).map Prod.fst =
      Except.ok [(".js", 30003)]
    unfold flatJsDir
    rw [scanPD_dir_step (by decide) (by decide) (by decide) h0]
    rw [scanPD_dir_step (by decide) (by decide) (by decide) (hA 10001)]
    rw [scanPD_dir_step (by decide) (by decide) (by decide) (hA 20002)]
    rw [scanPD]
    rfl
  · decide

/-- Claim C2. For every existing configuration and every map returned by the
discovery collaborator, the enhancement keeps every tool key of the existing
configuration bound to its original descriptor: discovered entries are only
inserted under names not already present, so existing entries are never
overwritten or removed. -/
theorem c2_enhance_preserves_existing_entries :
    ∀ (cfg : MCPConfig) (discovered : List (String × MCPServerInfo)) (k : String) (v : ServerEntry),
      List.lookup k (cfg.mcpServers.getD []) = some v →
      List.lookup k ((generateEnhancedMCPConfig cfg discovered).mcpServers.getD []) = some v := by
  intro cfg discovered k v h
  exact lookup_foldl_insert_some _ _ _ _ h

/-- Witness for claim C2's theorem at a concrete configuration where the
discovery result collides with an existing key. -/
theorem c2_enhance_witness :
    List.lookup "tool-a"
      ((generateEnhancedMCPConfig sampleConfig
        [("tool-a", sampleInfo), ("tool-b", sampleInfo)]).mcpServers.getD []) = some sampleEntry :=
  c2_enhance_preserves_existing_entries sampleConfig
    [("tool-a", sampleInfo), ("tool-b", sampleInfo)] "tool-a" sampleEntry (by decide)

/-- Claim C3, counterexample. The claim states that when the discovery
collaborator fails during enhancement, the enhancement returns the existing
configuration unchanged. In the code, `discoverMCPServers` catches its own
failure and returns the two-tool fallback map, so enhancing the empty
configuration under discovery failure adds `brave-search` and
`sequential-thinking` instead of leaving it unchanged. -/
theorem c3_enhance_unchanged_counterexample :
    enhanceOnDiscoveryFailure ⟨some []⟩ ≠ (⟨some []⟩ : MCPConfig) ∧
    (List.lookup "brave-search"
      ((enhanceOnDiscoveryFailure ⟨some []⟩).mcpServers.getD [])).isSome = true ∧
    (List.lookup "sequential-thinking"
      ((enhanceOnDiscoveryFailure ⟨some []⟩).mcpServers.getD [])).isSome = true := by
  decide

/-- Claim C3, amended. If the discovery collaborator fails during the
enhancement path, the enhancement does not error: every existing entry is
still present unchanged, and the only keys that can be added are the two
fallback baseline tools `brave-search` and `sequential-thinking`. -/
theorem c3_enhance_on_failure_adds_only_fallback :
    ∀ cfg : MCPConfig,
      (∀ (k : String) (v : ServerEntry),
        List.lookup k (cfg.mcpServers.getD []) = some v →
        List.lookup k ((enhanceOnDiscoveryFailure cfg).mcpServers.getD []) = some v) ∧
      (∀ k : String,
        (List.lookup k ((enhanceOnDiscoveryFailure cfg).mcpServers.getD [])).isSome →
        (List.lookup k (cfg.mcpServers.getD [])).isSome ∨
          k = "brave-search" ∨ k = "sequential-thinking") := by
  intro cfg
  constructor
  · intro k v h
    exact lookup_foldl_insert_some _ _ _ _ h
  · intro k h
    have h2 : (List.lookup k (fallbackServers.foldl insertIfAbsent (cfg.mcpServers.getD []))).isSome := h
    rw [lookup_foldl_isSome_iff] at h2
    rcases h2 with h2 | h2
    · exact Or.inl h2
    · right
      simpa [fallbackServers] using h2

/-- Witness for claim C3's amended theorem at a concrete configuration. -/
theorem c3_enhance_on_failure_witness :
    List.lookup "tool-a" ((enhanceOnDiscoveryFailure sampleConfig).mcpServers.getD [])
        = some sampleEntry ∧
    ((List.lookup "brave-search" (sampleConfig.mcpServers.getD [])).isSome ∨
      "brave-search" = "brave-search" ∨ "brave-search" = "sequential-thinking") :=
  ⟨(c3_enhance_on_failure_adds_only_fallback sampleConfig).1 "tool-a" sampleEntry (by decide),
   (c3_enhance_on_failure_adds_only_fallback sampleConfig).2 "brave-search" (by decide)⟩

/-- Claim C4. When the discovery collaborator is unreachable during a fresh
analyze (or plan) run, `discoverMCPServers` returns the fallback map, and the
resulting tool-server configuration is non-empty and contains both fallback
baseline tools `brave-search` and `sequential-thinking`. -/
theorem c4_fresh_config_on_discovery_failure_contains_baseline :
    (List.lookup "brave-search"
      ((generateMCPConfigWith fallbackServers).mcpServers.getD [])).isSome = true ∧
    (List.lookup "sequential-thinking"
      ((generateMCPConfigWith fallbackServers).mcpServers.getD [])).isSome = true ∧
    (generateMCPConfigWith fallbackServers).mcpServers.getD [] ≠ [] := by
  decide

/-- Claim C5. The classifier appends `JavaScript` to `languages` exactly when
the JavaScript pattern matches and the `typescript|ts` pattern does not match
the same description; in particular `Build a TypeScript React app` yields
`TypeScript` and not `JavaScript`, while `Build a React app` yields
`JavaScript`. -/
theorem c5_typescript_suppresses_javascript :
    (∀ d : String, "JavaScript" ∈ analyzeTechStackLanguages d ↔
      (patMatches jsAlts d = true ∧ patMatches tsSupAlts d = false)) ∧
    "TypeScript" ∈ analyzeTechStackLanguages "Build a TypeScript React app" ∧
    "JavaScript" ∉ analyzeTechStackLanguages "Build a TypeScript React app" ∧
    "JavaScript" ∈ analyzeTechStackLanguages "Build a React app" := by
  refine ⟨?_, by decide, by decide, by decide⟩
  intro d
  simp [analyzeTechStackLanguages, mem_langIf]

/-- Witness for claim C5's theorem: the membership criterion applied at a
concrete description. -/
theorem c5_classifier_witness :
    "JavaScript" ∈ analyzeTechStackLanguages "plain js backend" :=
  (c5_typescript_suppresses_javascript.1 "plain js backend").mpr ⟨by decide, by decide⟩

/-- Claim C6. Neither walker ever descends into a directory whose name is in
the fixed ignore set — the subtree is skipped whatever its contents — and in
particular a `node_modules` subtree containing a `.py` file contributes no
Python detection and no `fileTypes` count to a scan. -/
theorem c6_ignored_dirs_never_descended :
    (∀ (nm : String) (entries rest : List FSNode) (ft : FTMap) (d fc : Nat),
      isIgnoredDir nm = true →
      scanPD (FSNode.dir nm entries :: rest) ft d fc = scanPD rest ft d fc) ∧
    (∀ (nm : String) (entries rest : List FSNode) (st : ProjectStats),
      isIgnoredDir nm = true →
      scanDirList (FSNode.dir nm entries :: rest) st = scanDirList rest st) ∧
    (scanProject c6Tree).languages = ["JavaScript"] ∧
    (scanProject c6Tree).fileTypes = [(".js", 1)] := by
  refine ⟨?_, ?_, ?_, ?_⟩
  · intro nm entries rest ft d fc h
    rw [scanPD]
    simp [h]
  · intro nm entries rest st h
    rw [scanDirList]
    simp [h]
  · simp only [scanProject, c6Tree, scanDirList, isIgnoredDir]
    norm_num
    rfl
  · simp only [scanProject, c6Tree, scanDirList, isIgnoredDir]
    norm_num
    rfl

/-- Witness for claim C6's theorem: both walkers skip a concrete
`node_modules` directory containing a Python file. -/
theorem c6_ignored_dirs_witness :
    scanPD [FSNode.dir "node_modules" [FSNode.file "x.py" (FileContent.raw "")]] [] 0 0 =
      scanPD [] [] 0 0 ∧
    scanDirList [FSNode.dir "node_modules" [FSNode.file "x.py" (FileContent.raw "")]]
        ⟨[], [], [], [], []⟩ = scanDirList [] ⟨[], [], [], [], []⟩ :=
  ⟨c6_ignored_dirs_never_descended.1 "node_modules"
      [FSNode.file "x.py" (FileContent.raw "")] [] [] 0 0 (by decide),
   c6_ignored_dirs_never_descended.2.1 "node_modules"
      [FSNode.file "x.py" (FileContent.raw "")] [] ⟨[], [], [], [], []⟩ (by decide)⟩

/-- Claim C7, counterexample. The claim states that a non-permission
directory read error propagates to the top-level scan entry point, which
converts it into a user-visible error string. In the program as wired, the
analyze entry point scans through `scanProject`, whose walker `scanDir`
catches every read error at the directory where it occurs
(`src/project-analyzer.ts` lines 332–335) and keeps walking: scanning a root
whose first entry fails with the non-permission code `EIO` completes normally
and still counts the sibling file listed after the failing directory — the
error is handled inside the walk, never escaping to the entry point, and the
scan result is ordinary stats rather than an aborted, error-reporting run. -/
theorem c7_error_absorbed_counterexample :
    (scanProject (FSNode.dir "root"
      [FSNode.badDir "broken" "EIO", FSNode.file "a.js" (FileContent.raw "")])).fileTypes
        = [(".js", 1)] ∧
    (scanProject (FSNode.dir "root"
      [FSNode.badDir "broken" "EIO", FSNode.file "a.js" (FileContent.raw "")])).languages
        = ["JavaScript"] := by
  constructor
  · simp only [scanProject, scanDirList]
    rfl
  · simp only [scanProject, scanDirList]
    rfl

/-- Claim C7, amended. On a directory read error during the walk: in the
bounded walker `scanProjectDirectory` (`src/utils/fs.ts`, no production
caller), a permission failure (`EACCES`) is recovered locally — a warning is
logged, the subtree contributes nothing and the loop continues — while a read
error with any other code propagates out through every enclosing directory of
that walk to its caller; in the pipeline walker `scanDir` — the scan the
analyze entry point actually invokes — every read error, permission or not,
is absorbed at the directory where it occurs (logged, subtree empty) and the
walk continues, so no traversal error ever reaches the top-level entry point
and the invocation does not crash. -/
theorem c7_traversal_error_semantics :
    (∀ (nm : String) (rest : List FSNode) (ft : FTMap) (d fc : Nat),
      isIgnoredDir nm = false → d + 1 < MAX_SCAN_DEPTH → fc < MAX_FILES →
      scanPD (FSNode.badDir nm "EACCES" :: rest) ft d fc = scanPD rest ft d fc) ∧
    (∀ (nm code : String) (rest : List FSNode) (ft : FTMap) (d fc : Nat),
      isIgnoredDir nm = false → d + 1 < MAX_SCAN_DEPTH → fc < MAX_FILES →
      code ≠ "EACCES" →
      scanPD (FSNode.badDir nm code :: rest) ft d fc = Except.error code) ∧
    (∀ (nm : String) (entries rest : List FSNode) (ft : FTMap) (d fc : Nat) (e : String),
      isIgnoredDir nm = false → d + 1 < MAX_SCAN_DEPTH → fc < MAX_FILES →
      scanPD entries ft (d + 1) fc = Except.error e →
      scanPD (FSNode.dir nm entries :: rest) ft d fc = Except.error e) ∧
    (∀ (nm code : String) (rest : List FSNode) (st : ProjectStats),
      scanDirList (FSNode.badDir nm code :: rest) st = scanDirList rest st) := by
  refine ⟨?_, ?_, ?_, ?_⟩
  · intro nm rest ft d fc hig hd hfc
    rw [scanPD]
    simp [hig, Nat.not_le.mpr hd, Nat.not_le.mpr hfc]
  · intro nm code rest ft d fc hig hd hfc hcode
    rw [scanPD]
    simp [hig, Nat.not_le.mpr hd, Nat.not_le.mpr hfc, hcode]
  · intro nm entries rest ft d fc e hig hd hfc herr
    rw [scanPD]
    simp [hig, Nat.not_le.mpr hd, Nat.not_le.mpr hfc, herr]
  · intro nm code rest st
    rw [scanDirList]

/-- Witness for claim C7's amended theorem at concrete error trees. -/
theorem c7_traversal_error_witness :
    scanPD [FSNode.badDir "secret" "EACCES"] [] 0 0 = scanPD [] [] 0 0 ∧
    scanPD [FSNode.badDir "broken" "EIO"] [] 0 0 = Except.error "EIO" ∧
    scanPD [FSNode.dir "a" [FSNode.badDir "broken" "EIO"]] [] 0 0 = Except.error "EIO" ∧
    scanDirList [FSNode.badDir "broken" "EIO"] ⟨[], [], [], [], []⟩ =
      scanDirList [] ⟨[], [], [], [], []⟩ := by
  have h1 := c7_traversal_error_semantics.1 "secret" [] [] 0 0
    (by decide) (by decide) (by decide)
  have h2 := c7_traversal_error_semantics.2.1 "broken" "EIO" [] [] 0 0
    (by decide) (by decide) (by decide) (by decide)
  have h2d1 := c7_traversal_error_semantics.2.1 "broken" "EIO" [] [] 1 0
    (by decide) (by decide) (by decide) (by decide)
  have h3 := c7_traversal_error_semantics.2.2.1 "a" [FSNode.badDir "broken" "EIO"] [] [] 0 0 "EIO"
    (by decide) (by decide) (by decide) h2d1
  exact ⟨h1, h2, h3, c7_traversal_error_semantics.2.2.2 "broken" "EIO" [] ⟨[], [], [], [], []⟩⟩

/-- Claim C8. The `ProjectStats` returned by a completed `scanProject` has no
duplicate entries in `languages`, `frameworks`, `dependencies` or `features`:
the first three are pushed through guarded `includes` checks throughout the
walk, and `features` — a multiset during accumulation — is deduplicated to a
set at the end of the scan. -/
theorem c8_scan_output_no_duplicates : ∀ root : FSNode,
    (scanProject root).languages.Nodup ∧ (scanProject root).frameworks.Nodup ∧
      (scanProject root).dependencies.Nodup ∧ (scanProject root).features.Nodup := by
  intro root
  have h0 : statsNodup ⟨[], [], [], [], []⟩ := ⟨List.nodup_nil, List.nodup_nil, List.nodup_nil⟩
  unfold scanProject
  dsimp only
  split
  · rename_i nm entries
    obtain ⟨h1, h2, h3⟩ := scanDirList_inv entries _ h0
    exact ⟨h1, h2, h3, dedupFirst_nodup _⟩
  · exact ⟨List.nodup_nil, List.nodup_nil, List.nodup_nil, dedupFirst_nodup _⟩

/-- Claim C9. `findNewTools` is a pure set difference over the key names of
the two tool maps, independent of entry contents; applied to the enhancement's
output against its original input it yields exactly the discovery-contributed
keys that were absent before. -/
theorem c9_findNewTools_is_key_set_difference :
    (∀ (oldC newC : MCPConfig) (t : String),
      t ∈ findNewTools oldC newC ↔
        (t ∈ (newC.mcpServers.getD []).map Prod.fst ∧
          t ∉ (oldC.mcpServers.getD []).map Prod.fst)) ∧
    (∀ (cfg : MCPConfig) (discovered : List (String × MCPServerInfo)) (t : String),
      t ∈ findNewTools cfg (generateEnhancedMCPConfig cfg discovered) ↔
        (t ∈ discovered.map Prod.fst ∧
          t ∉ (cfg.mcpServers.getD []).map Prod.fst)) := by
  have hpart1 : ∀ (oldC newC : MCPConfig) (t : String),
      t ∈ findNewTools oldC newC ↔
        (t ∈ (newC.mcpServers.getD []).map Prod.fst ∧
          t ∉ (oldC.mcpServers.getD []).map Prod.fst) := by
    intro oldC newC t
    unfold findNewTools
    rw [List.mem_filter]
    simp
  refine ⟨hpart1, ?_⟩
  intro cfg discovered t
  rw [hpart1]
  have hk : t ∈ ((generateEnhancedMCPConfig cfg discovered).mcpServers.getD []).map Prod.fst ↔
      ((List.lookup t (cfg.mcpServers.getD [])).isSome ∨ t ∈ discovered.map Prod.fst) := by
    rw [← lookup_isSome_iff_mem_keys]
    exact lookup_foldl_isSome_iff discovered (cfg.mcpServers.getD []) t
  rw [hk]
  constructor
  · rintro ⟨h1 | h1, h2⟩
    · exact (h2 ((lookup_isSome_iff_mem_keys _ t).mp h1)).elim
    · exact ⟨h1, h2⟩
  · rintro ⟨h1, h2⟩
    exact ⟨Or.inr h1, h2⟩

/-- Witness for claim C9's theorem: a discovery-contributed key absent from
the original configuration is reported by the diff. -/
theorem c9_findNewTools_witness :
    "tool-b" ∈ findNewTools sampleConfig
      (generateEnhancedMCPConfig sampleConfig [("tool-b", sampleInfo)]) :=
  (c9_findNewTools_is_key_set_difference.2 sampleConfig [("tool-b", sampleInfo)] "tool-b").mpr
    ⟨by decide, by decide⟩

/-- Claim C10. The language regexes match bare substrings anywhere in the
description, so every description containing `django` (in any case, i.e. whose
lowercasing contains the substring `django`) is classified with both `Python`
(the `django` alternative of the Python pattern) and `Go` (the `go` inside
`django` matches `/go|golang/i`). -/
theorem c10_django_implies_python_and_go :
    ∀ d : String, listContainsSub ("django".toList) (lowerChars d) = true →
      "Python" ∈ analyzeTechStackLanguages d ∧ "Go" ∈ analyzeTechStackLanguages d := by
  intro d h
  have hpy : patMatches pyAlts d = true :=
    List.any_eq_true.mpr ⟨"django".toList, by decide, h⟩
  have hgo : patMatches goAlts d = true := by
    have hsub : listContainsSub ("go".toList) (lowerChars d) = true := by
      have hd : "django".toList = "djan".toList ++ "go".toList ++ [] := by decide
      exact listContainsSub_mono _ _ _ _ (hd ▸ h)
    exact List.any_eq_true.mpr ⟨"go".toList, by decide, hsub⟩
  constructor
  · simp [analyzeTechStackLanguages, mem_langIf, hpy]
  · simp [analyzeTechStackLanguages, mem_langIf, hgo]

/-- Witness for claim C10's theorem at a concrete description containing
`Django`. -/
theorem c10_django_witness :
    "Python" ∈ analyzeTechStackLanguages "a Django storefront" ∧
    "Go" ∈ analyzeTechStackLanguages "a Django storefront" :=
  c10_django_implies_python_and_go "a Django storefront" (by decide)
